import Mathlib

/-!
Verification of the Sequential packing / PCM processing / Pro 3 wavetable
library against its specification.

The C sources are shallowly embedded:
* byte buffers (`SequentialData.value` arrays together with their `size`
  fields) become `List Nat`, one element per `unsigned int` slot;
* PCM buffers become a structure with a `List Int` sample store;
* C `int` arithmetic is modelled with `Int` (`>>` on signed values as
  `Int.fdiv` by a power of two, `/` as `Int.tdiv`, masking as `Int.emod`);
* C `float` arithmetic is modelled with `ℚ` and explicit truncation
  (`truncRat`), which is exact for every computation the claims exercise;
* reads of array slots that the C code never wrote are modelled by
  `List.getD` with default `0`, standing in for indeterminate memory.
-/

/-- SEQUENTIAL_DATA_MAX from sequential_packing.h. -/
def SEQUENTIAL_DATA_MAX : Nat := 128000

/-- Loop body of `Seq_unpack` (sequential_packing.h).  The parameters are the
remaining packed input, the current composite `packbyte`, the position
`pos` (cycling 0..7), and `size`, the number of values emitted so far.
Every 8th input value (at `pos = 0`) replaces the pack byte; each other
value is emitted with bit 7 restored from the pack byte.  The loop breaks
once `size > SEQUENTIAL_DATA_MAX` at the end of an iteration. -/
def unpackGo : List Nat → Nat → Nat → Nat → List Nat
  | [], _, _, _ => []
  | c :: rest, packbyte, pos, size =>
    if pos = 0 then
      if size > SEQUENTIAL_DATA_MAX then []
      else unpackGo rest c ((pos + 1) % 8) size
    else
      let c2 := if Nat.testBit packbyte (pos - 1) then c ||| 0x80 else c
      c2 :: (if size + 1 > SEQUENTIAL_DATA_MAX then []
             else unpackGo rest packbyte ((pos + 1) % 8) (size + 1))

/-- Seq_unpack from sequential_packing.h: unpack a packed byte sequence. -/
def Seq_unpack (packed : List Nat) : List Nat :=
  unpackGo packed 0 0 0

/-- Loop body of `Seq_pack` (defined as `pack` in sequential_packing.h).
State: remaining unpacked input, current `packbyte`, position `pos` within
the 7-byte packet, the pending `packet` contents, and `size`, the number of
values already flushed to the output.  At the start of an iteration with a
full packet (`pos = 7`) the pack byte and packet are flushed; the byte is
then masked to 7 bits with its high bit recorded in the pack byte; the
loop breaks when `size + 8 > SEQUENTIAL_DATA_MAX` at the end of an
iteration, and the final pack byte and partial packet are always flushed. -/
def packGo : List Nat → Nat → Nat → List Nat → Nat → List Nat
  | [], packbyte, _, packet, _ => packbyte :: packet
  | c :: rest, packbyte, pos, packet, size =>
    let fl := pos = 7
    let out := if fl then packbyte :: packet else []
    let pb0 := if fl then 0 else packbyte
    let pos0 := if fl then 0 else pos
    let packet0 := if fl then [] else packet
    let size0 := if fl then size + 8 else size
    let hi := Nat.testBit c 7
    let pb1 := if hi then pb0 + 2 ^ pos0 else pb0
    let c1 := if hi then c % 0x80 else c
    if size0 + 8 > SEQUENTIAL_DATA_MAX then out ++ pb1 :: (packet0 ++ [c1])
    else out ++ packGo rest pb1 (pos0 + 1) (packet0 ++ [c1]) size0

/-- Seq_pack from sequential_packing.h (the function body is named `pack`
in the source while its declaration names it `Seq_pack`). -/
def Seq_pack (unpacked : List Nat) : List Nat :=
  packGo unpacked 0 0 [] 0

example : Seq_pack [0x81, 0x02, 0x83, 0x04, 0x85, 0x06, 0x87] =
    [0x55, 0x01, 0x02, 0x03, 0x04, 0x05, 0x06, 0x07] := by decide

example : Seq_unpack [0x55, 0x01, 0x02, 0x03, 0x04, 0x05, 0x06, 0x07] =
    [0x81, 0x02, 0x83, 0x04, 0x85, 0x06, 0x87] := by decide

example : Seq_pack [] = [0] := by decide

example : Seq_unpack (Seq_pack [1, 200, 3]) = [1, 200, 3] := by decide

/-- Composite pack byte accumulated by the `Seq_pack` loop for a run of
values, with the first value's high bit recorded at bit position `j`. -/
def packbyteFrom : List Nat → Nat → Nat
  | [], _ => 0
  | c :: t, j => (if Nat.testBit c 7 then 2 ^ j else 0) + packbyteFrom t (j + 1)

/-- Values of a run after `Seq_pack` masks away each value's high bit. -/
def maskLow (l : List Nat) : List Nat :=
  l.map (fun c => if Nat.testBit c 7 then c % 0x80 else c)

/-- Values of a run after `Seq_unpack` restores high bits from pack byte
`pb`, the first value using bit `j` of `pb`. -/
def unmaskFrom : List Nat → Nat → Nat → List Nat
  | [], _, _ => []
  | c :: t, pb, j => (if Nat.testBit pb j then c ||| 0x80 else c) :: unmaskFrom t pb (j + 1)

theorem length_unmaskFrom (g : List Nat) (pb j : Nat) :
    (unmaskFrom g pb j).length = g.length := by
  induction g generalizing j with
  | nil => rfl
  | cons c t ih => simp [unmaskFrom, ih]

theorem packbyteFrom_dvd (t : List Nat) (j : Nat) : 2 ^ j ∣ packbyteFrom t j := by
  induction t generalizing j with
  | nil => simp [packbyteFrom]
  | cons c t ih =>
    refine Nat.dvd_add ?_ ?_
    · split <;> simp
    · exact dvd_trans (pow_dvd_pow 2 (Nat.le_succ j)) (ih (j + 1))

set_option maxRecDepth 4096 in
/-- Restoring the high bit after masking is the identity on byte values. -/
theorem byte_restore :
    ∀ x : Fin 256, (if Nat.testBit x.val 7 then (x.val % 0x80) ||| 0x80 else x.val) = x.val := by
  decide

/-- Bit `j` of `p + packbyteFrom g j` is the high bit of `g`'s first value,
provided the low bits `p` do not reach position `j`. -/
theorem testBit_packbyteFrom (c : Nat) (t : List Nat) (p j : Nat) (hp : p < 2 ^ j) :
    Nat.testBit (p + packbyteFrom (c :: t) j) j = Nat.testBit c 7 := by
  obtain ⟨m, hm⟩ := packbyteFrom_dvd t (j + 1)
  have h2 : (0:Nat) < 2 ^ j := Nat.pos_pow_of_pos j (by norm_num)
  rw [Nat.testBit_to_div_mod]
  rcases hb : Nat.testBit c 7 with _ | _
  · have : p + packbyteFrom (c :: t) j = p + 2 ^ j * (2 * m) := by
      simp [packbyteFrom, hb, hm, pow_succ]; ring
    rw [this, Nat.add_mul_div_left _ _ h2, Nat.div_eq_of_lt hp]
    simp [Nat.add_mul_mod_self_left]
  · have : p + packbyteFrom (c :: t) j = (p + 2 ^ j) + 2 ^ j * (2 * m) := by
      simp [packbyteFrom, hb, hm, pow_succ]; ring
    rw [this, Nat.add_mul_div_left _ _ h2, Nat.add_div_right _ h2, Nat.div_eq_of_lt hp]
    simp [Nat.add_mul_mod_self_left]

/-- Unmasking a masked run against its own pack byte restores the run,
for byte values.  `p` collects already-processed low bits of the pack
byte. -/
theorem unmask_mask (g : List Nat) (hg : ∀ v ∈ g, v < 256) :
    ∀ (j p : Nat), p < 2 ^ j →
      unmaskFrom (maskLow g) (p + packbyteFrom g j) j = g := by
  induction g with
  | nil => intro j p _; rfl
  | cons c t ih =>
    intro j p hp
    have hc : c < 256 := hg c (List.mem_cons_self c t)
    have ht : ∀ v ∈ t, v < 256 := fun v hv => hg v (List.mem_cons_of_mem c hv)
    have hbit := testBit_packbyteFrom c t p j hp
    have hstep : p + packbyteFrom (c :: t) j =
        (p + (if Nat.testBit c 7 then 2 ^ j else 0)) + packbyteFrom t (j + 1) := by
      simp [packbyteFrom]; ring
    have hp' : p + (if Nat.testBit c 7 then 2 ^ j else 0) < 2 ^ (j + 1) := by
      have := pow_succ 2 j
      split <;> omega
    have htail := ih ht (j + 1) (p + (if Nat.testBit c 7 then 2 ^ j else 0)) hp'
    simp only [maskLow, List.map_cons, unmaskFrom, hbit, List.cons.injEq]
    refine ⟨?_, ?_⟩
    · have hbr := byte_restore ⟨c, hc⟩
      rcases h7 : Nat.testBit c 7 <;> simp [h7] at hbr ⊢ <;> simp [hbr]
    · rw [hstep]
      simpa [maskLow] using htail

/-- The `Seq_pack` loop absorbs a run into the pending packet while the
packet does not fill up and the output capacity check does not fire. -/
theorem packGo_fill (g : List Nat) :
    ∀ (rest : List Nat) (pb pos : Nat) (packet : List Nat) (size : Nat),
      pos + g.length ≤ 7 → size + 8 ≤ SEQUENTIAL_DATA_MAX →
      packGo (g ++ rest) pb pos packet size =
        packGo rest (pb + packbyteFrom g pos) (pos + g.length) (packet ++ maskLow g) size := by
  induction g with
  | nil => intro rest pb pos packet size _ _; simp [packbyteFrom, maskLow]
  | cons c t ih =>
    intro rest pb pos packet size hpos hsz
    have h7 : pos ≠ 7 := by simp at hpos; omega
    have hbr : ¬ (size + 8 > SEQUENTIAL_DATA_MAX) := by omega
    have hpos' : (pos + 1) + t.length ≤ 7 := by simp at hpos; omega
    simp only [List.cons_append, packGo, if_neg h7, if_neg hbr, List.append_eq,
      List.nil_append]
    rw [ih rest _ (pos + 1) _ size hpos' hsz]
    have hpb : (if Nat.testBit c 7 then pb + 2 ^ pos else pb) + packbyteFrom t (pos + 1) =
        pb + packbyteFrom (c :: t) pos := by
      simp only [packbyteFrom]
      split <;> ring
    have hpk : (packet ++ [if Nat.testBit c 7 then c % 0x80 else c]) ++ maskLow t =
        packet ++ maskLow (c :: t) := by
      simp [maskLow]
    simp only [hpb, hpk, List.length_cons]
    ring_nf

/-- With a full packet and more input to come, the `Seq_pack` loop flushes
the pack byte and packet and restarts from a fresh packet state. -/
theorem packGo_flush (l : List Nat) (hl : l ≠ []) (pb : Nat) (packet : List Nat) (size : Nat) :
    packGo l pb 7 packet size = (pb :: packet) ++ packGo l 0 0 [] (size + 8) := by
  cases l with
  | nil => exact absurd rfl hl
  | cons c t =>
    simp only [packGo]
    norm_num
    split <;> simp

/-- The `Seq_unpack` loop consumes a run of data values that follow a pack
byte, restoring high bits from bits `j`, `j+1`, ... of `pb`; when the run
completes a packet the position wraps to `0`. -/
theorem unpackGo_fill (g : List Nat) :
    ∀ (rest : List Nat) (pb j size : Nat),
      j + 1 ≤ 7 → j + 1 + g.length ≤ 8 → size + g.length ≤ SEQUENTIAL_DATA_MAX →
      unpackGo (g ++ rest) pb (j + 1) size =
        unmaskFrom g pb j ++
          (if j + 1 + g.length = 8 then unpackGo rest pb 0 (size + g.length)
           else unpackGo rest pb (j + 1 + g.length) (size + g.length)) := by
  induction g with
  | nil =>
    intro rest pb j size hj hlen _
    have : ¬ (j + 1 + 0 = 8) := by omega
    simp [unmaskFrom, this]
  | cons c t ih =>
    intro rest pb j size hj hlen hsz
    have hne : j + 1 ≠ 0 := by omega
    have hnostop : ¬ (size + 1 > SEQUENTIAL_DATA_MAX) := by
      simp only [List.length_cons] at hsz
      simp only [SEQUENTIAL_DATA_MAX] at *
      omega
    simp only [List.cons_append, unpackGo, if_neg hne, Nat.add_sub_cancel, if_neg hnostop,
      List.append_eq]
    by_cases hwrap : j + 1 = 7
    · -- the inserted value completes the packet
      have ht : t = [] := by
        simp only [List.length_cons] at hlen
        have : t.length = 0 := by omega
        exact List.eq_nil_of_length_eq_zero this
      subst ht
      have : (j + 1 + 1) % 8 = 0 := by omega
      simp [this, unmaskFrom, hwrap]
    · have hj' : (j + 1) + 1 ≤ 7 := by omega
      have hmod : (j + 1 + 1) % 8 = (j + 1) + 1 := by omega
      rw [hmod]
      have := ih rest pb (j + 1) (size + 1) hj' (by simp at hlen ⊢; omega)
        (by simp at hsz ⊢; omega)
      rw [this]
      simp only [unmaskFrom, List.length_cons, List.cons_append]
      have harith : j + 1 + 1 + t.length = j + 1 + (t.length + 1) := by omega
      rw [harith]
      have harith2 : size + 1 + t.length = size + (t.length + 1) := by omega
      rw [harith2]

theorem length_maskLow (l : List Nat) : (maskLow l).length = l.length := by
  simp [maskLow]


theorem unpackGo_nil (pb pos size : Nat) : unpackGo [] pb pos size = [] := rfl

/-- At position 0 the `Seq_unpack` loop records the pack byte and emits
nothing, provided the capacity check does not fire. -/
theorem unpackGo_cons_zero (c : Nat) (rest : List Nat) (pb size : Nat)
    (h : size ≤ SEQUENTIAL_DATA_MAX) :
    unpackGo (c :: rest) pb 0 size = unpackGo rest c 1 size := by
  have h' : ¬ (size > SEQUENTIAL_DATA_MAX) := by omega
  simp [unpackGo, h']

/-- Round trip of the two loops from matching initial states, as long as
neither capacity check can fire. -/
theorem roundtrip_aux :
    ∀ (n : Nat) (x : List Nat), x.length = n → (∀ v ∈ x, v < 256) →
      ∀ (s s' pbq : Nat),
        s + 8 * ((n + 6) / 7) ≤ SEQUENTIAL_DATA_MAX →
        s' + n ≤ SEQUENTIAL_DATA_MAX →
        unpackGo (packGo x 0 0 [] s) pbq 0 s' = x := by
  intro n
  induction n using Nat.strong_induction_on with
  | _ n ih =>
    intro x hx hv s s' pbq hs hs'
    by_cases hn7 : n ≤ 7
    · rcases Nat.eq_zero_or_pos n with hn0 | hn1
      · subst hn0
        have hxe : x = [] := List.eq_nil_of_length_eq_zero hx
        subst hxe
        have : ¬ (s' > SEQUENTIAL_DATA_MAX) := by omega
        simp [packGo, unpackGo, this]
      · have hceil : (n + 6) / 7 = 1 := by omega
        have hs8 : s + 8 ≤ SEQUENTIAL_DATA_MAX := by omega
        have hfill := packGo_fill x [] 0 0 [] s (by omega) hs8
        rw [List.append_nil] at hfill
        simp only [Nat.zero_add, List.nil_append] at hfill
        rw [hx] at hfill
        rw [hfill]
        have hpk : packGo [] (packbyteFrom x 0) n (maskLow x) s =
            packbyteFrom x 0 :: maskLow x := rfl
        rw [hpk, unpackGo_cons_zero _ _ _ _ (by omega)]
        have hlmx : (maskLow x).length = n := by rw [length_maskLow, hx]
        have hufill := unpackGo_fill (maskLow x) [] (packbyteFrom x 0) 0 s'
          (by omega) (by omega) (by omega)
        rw [List.append_nil] at hufill
        simp only [Nat.zero_add] at hufill
        rw [hufill]
        have hum := unmask_mask x hv 0 0 (by norm_num)
        simp only [Nat.zero_add] at hum
        rw [hum]
        split <;> simp [unpackGo_nil]
    · -- peel one full packet of seven values
      set g := x.take 7 with hg
      set rest := x.drop 7 with hrest
      have hsplit : g ++ rest = x := List.take_append_drop 7 x
      have hlg : g.length = 7 := by
        rw [hg, List.length_take, hx]; omega
      have hlr : rest.length = n - 7 := by
        rw [hrest, List.length_drop, hx]
      have hrne : rest ≠ [] := by
        intro h0
        rw [h0] at hlr
        simp at hlr
        omega
      have hceil : (n + 6) / 7 = (n - 7 + 6) / 7 + 1 := by omega
      have hs8 : s + 8 ≤ SEQUENTIAL_DATA_MAX := by
        have : (1:Nat) ≤ (n + 6) / 7 := by omega
        omega
      have hvg : ∀ v ∈ g, v < 256 := fun v hvmem =>
        hv v (by rw [← hsplit]; exact List.mem_append_left rest hvmem)
      have hvr : ∀ v ∈ rest, v < 256 := fun v hvmem =>
        hv v (by rw [← hsplit]; exact List.mem_append_right g hvmem)
      have hfill := packGo_fill g rest 0 0 [] s (by omega) hs8
      simp only [Nat.zero_add, List.nil_append] at hfill
      rw [hlg] at hfill
      have hflush := packGo_flush rest hrne (packbyteFrom g 0) (maskLow g) s
      rw [← hsplit, hfill, hflush]
      simp only [List.cons_append]
      rw [unpackGo_cons_zero _ _ _ _ (by omega)]
      have hlmg : (maskLow g).length = 7 := by rw [length_maskLow, hlg]
      have hufill := unpackGo_fill (maskLow g) (packGo rest 0 0 [] (s + 8))
        (packbyteFrom g 0) 0 s' (by omega) (by omega) (by omega)
      simp only [Nat.zero_add] at hufill
      rw [hlmg] at hufill
      norm_num at hufill
      rw [hufill]
      have hum := unmask_mask g hvg 0 0 (by norm_num)
      simp only [Nat.zero_add] at hum
      rw [hum]
      have hihyp := ih (n - 7) (by omega) rest hlr hvr (s + 8) (s' + 7) (packbyteFrom g 0)
        (by omega) (by omega)
      rw [hihyp]

/-- Claim C1 (amended): `Seq_unpack (Seq_pack x) = x` for byte sequences of
any length up to 112000 (the largest length whose packed form fits the
128000-value capacity), whether or not the length is a multiple of 7.  For
lengths above 112000 the pack loop's capacity check truncates the stream,
so the round trip fails even though the input itself is under capacity. -/
theorem c1_roundtrip (x : List Nat) (hv : ∀ v ∈ x, v < 256) (hn : x.length ≤ 112000) :
    Seq_unpack (Seq_pack x) = x := by
  have h1 : (0:Nat) + 8 * ((x.length + 6) / 7) ≤ SEQUENTIAL_DATA_MAX := by
    have : (x.length + 6) / 7 ≤ 16000 := by omega
    simp only [SEQUENTIAL_DATA_MAX]
    omega
  have h2 : (0:Nat) + x.length ≤ SEQUENTIAL_DATA_MAX := by
    simp only [SEQUENTIAL_DATA_MAX]; omega
  exact roundtrip_aux x.length x rfl hv 0 0 0 h1 h2

/-- Witness for `c1_roundtrip` at a concrete two-byte input. -/
theorem c1_roundtrip_witness :
    (∀ v ∈ [5, 200], v < 256) ∧ Seq_unpack (Seq_pack [5, 200]) = [5, 200] :=
  ⟨by decide, c1_roundtrip [5, 200] (by decide) (by decide)⟩

/-- Length of the `Seq_pack` loop's output from a fresh packet state, when
the capacity check cannot fire: one pack byte for every run of up to seven
values, and one lone pack byte for empty input. -/
theorem packGo_length_aux :
    ∀ (n : Nat) (x : List Nat), x.length = n →
      ∀ (s : Nat), s + 8 * ((n + 6) / 7) ≤ SEQUENTIAL_DATA_MAX →
        (packGo x 0 0 [] s).length = max 1 (n + (n + 6) / 7) := by
  intro n
  induction n using Nat.strong_induction_on with
  | _ n ih =>
    intro x hx s hs
    by_cases hn7 : n ≤ 7
    · rcases Nat.eq_zero_or_pos n with hn0 | hn1
      · subst hn0
        have hxe : x = [] := List.eq_nil_of_length_eq_zero hx
        subst hxe
        simp [packGo]
      · have hceil : (n + 6) / 7 = 1 := by omega
        have hs8 : s + 8 ≤ SEQUENTIAL_DATA_MAX := by omega
        have hfill := packGo_fill x [] 0 0 [] s (by omega) hs8
        rw [List.append_nil] at hfill
        simp only [Nat.zero_add, List.nil_append] at hfill
        rw [hx] at hfill
        rw [hfill]
        have hpk : packGo [] (packbyteFrom x 0) n (maskLow x) s =
            packbyteFrom x 0 :: maskLow x := rfl
        rw [hpk]
        simp [length_maskLow, hx, hceil]
    · set g := x.take 7 with hg
      set rest := x.drop 7 with hrest
      have hsplit : g ++ rest = x := List.take_append_drop 7 x
      have hlg : g.length = 7 := by
        rw [hg, List.length_take, hx]; omega
      have hlr : rest.length = n - 7 := by
        rw [hrest, List.length_drop, hx]
      have hrne : rest ≠ [] := by
        intro h0
        rw [h0] at hlr
        simp at hlr
        omega
      have hceil : (n + 6) / 7 = (n - 7 + 6) / 7 + 1 := by omega
      have hs8 : s + 8 ≤ SEQUENTIAL_DATA_MAX := by
        have : (1:Nat) ≤ (n + 6) / 7 := by omega
        omega
      have hfill := packGo_fill g rest 0 0 [] s (by omega) hs8
      simp only [Nat.zero_add, List.nil_append] at hfill
      rw [hlg] at hfill
      have hflush := packGo_flush rest hrne (packbyteFrom g 0) (maskLow g) s
      rw [← hsplit, hfill, hflush]
      have hihyp := ih (n - 7) (by omega) rest hlr (s + 8) (by omega)
      simp only [List.cons_append, List.length_cons, List.length_append, length_maskLow, hlg,
        hihyp]
      omega

/-- Claim C3 (amended): the size of `Seq_pack`'s output is
`ceil(n/7) + n` for `n ≥ 1` input values whose packed form fits under the
capacity, but for `n = 0` the loop still flushes one lone pack byte, so the
output size is `max 1 (ceil(n/7) + n)`. -/
theorem c3_pack_length (x : List Nat)
    (hcap : x.length + (x.length + 6) / 7 ≤ SEQUENTIAL_DATA_MAX) :
    (Seq_pack x).length = max 1 (x.length + (x.length + 6) / 7) := by
  have h1 : (0:Nat) + 8 * ((x.length + 6) / 7) ≤ SEQUENTIAL_DATA_MAX := by
    simp only [SEQUENTIAL_DATA_MAX] at *
    omega
  exact packGo_length_aux x.length x rfl 0 h1

/-- Witness for `c3_pack_length` at a concrete three-byte input. -/
theorem c3_pack_length_witness :
    ([1, 2, 3] : List Nat).length + (([1, 2, 3] : List Nat).length + 6) / 7 ≤
        SEQUENTIAL_DATA_MAX ∧
      (Seq_pack [1, 2, 3]).length = max 1 (([1, 2, 3] : List Nat).length +
        (([1, 2, 3] : List Nat).length + 6) / 7) :=
  ⟨by decide, c3_pack_length [1, 2, 3] (by decide)⟩

/-- Counterexample to claim C3 as stated: for the empty input the packed
output has one value (a lone pack byte), not `ceil(0/7) + 0 = 0`. -/
theorem c3_counterexample :
    (Seq_pack ([] : List Nat)).length ≠
      ([] : List Nat).length + (([] : List Nat).length + 6) / 7 := by
  decide

theorem packbyteFrom_replicate_zero (n j : Nat) :
    packbyteFrom (List.replicate n 0) j = 0 := by
  induction n generalizing j with
  | zero => rfl
  | succ m ih => simp [List.replicate_succ, packbyteFrom, ih]

theorem maskLow_replicate_zero (n : Nat) :
    maskLow (List.replicate n 0) = List.replicate n 0 := by
  simp [maskLow]

theorem unmaskFrom_replicate_zero (n j : Nat) :
    unmaskFrom (List.replicate n 0) 0 j = List.replicate n 0 := by
  induction n generalizing j with
  | zero => rfl
  | succ m ih => simp [List.replicate_succ, unmaskFrom, ih]

/-- The `Seq_pack` loop turns `k` full runs of seven zero bytes into `8 k`
zero output values while the capacity check has room. -/
theorem packGo_zero_groups :
    ∀ (k s c : Nat) (t : List Nat), s + 8 * k ≤ SEQUENTIAL_DATA_MAX →
      packGo (List.replicate (7 * k) 0 ++ c :: t) 0 0 [] s =
        List.replicate (8 * k) 0 ++ packGo (c :: t) 0 0 [] (s + 8 * k) := by
  intro k
  induction k with
  | zero => intro s c t _; simp
  | succ m ih =>
    intro s c t hs
    have hsplit : List.replicate (7 * (m + 1)) 0 = List.replicate 7 0 ++ List.replicate (7 * m) (0:Nat) := by
      rw [← List.replicate_add]
      congr 1
      ring
    have hs8 : s + 8 ≤ SEQUENTIAL_DATA_MAX := by omega
    have hfill := packGo_fill (List.replicate 7 0) (List.replicate (7 * m) 0 ++ c :: t)
      0 0 [] s (by simp) hs8
    simp only [Nat.zero_add, List.nil_append, packbyteFrom_replicate_zero,
      maskLow_replicate_zero, List.length_replicate, Nat.add_zero] at hfill
    have hrne : List.replicate (7 * m) (0:Nat) ++ c :: t ≠ [] := by
      intro h0
      have := congrArg List.length h0
      simp at this
    have hflush := packGo_flush (List.replicate (7 * m) 0 ++ c :: t) hrne 0
      (List.replicate 7 0) s
    rw [hsplit, List.append_assoc, hfill, hflush]
    rw [ih (s + 8) c t (by omega)]
    have hrep : ((0:Nat) :: List.replicate 7 0) ++ List.replicate (8 * m) 0 =
        List.replicate (8 * (m + 1)) 0 := by
      have h8 : (0:Nat) :: List.replicate 7 0 = List.replicate 8 0 := rfl
      rw [h8, ← List.replicate_add]
      congr 1
      ring
    have harith : s + 8 + 8 * m = s + 8 * (m + 1) := by ring
    rw [← List.append_assoc, hrep, harith]

/-- The `Seq_unpack` loop turns `k` full packets of eight zero bytes into
`7 k` zero output values while the capacity check has room. -/
theorem unpackGo_zero_groups :
    ∀ (k s : Nat) (rest : List Nat), s + 7 * k ≤ SEQUENTIAL_DATA_MAX →
      unpackGo (List.replicate (8 * k) 0 ++ rest) 0 0 s =
        List.replicate (7 * k) 0 ++ unpackGo rest 0 0 (s + 7 * k) := by
  intro k
  induction k with
  | zero => intro s rest _; simp
  | succ m ih =>
    intro s rest hs
    have hsplit : List.replicate (8 * (m + 1)) (0:Nat) =
        (0 :: List.replicate 7 0) ++ List.replicate (8 * m) 0 := by
      have h8 : (0:Nat) :: List.replicate 7 0 = List.replicate 8 0 := rfl
      rw [h8, ← List.replicate_add]
      congr 1
      ring
    rw [hsplit, List.append_assoc, List.cons_append,
      unpackGo_cons_zero _ _ _ _ (by omega)]
    have hufill := unpackGo_fill (List.replicate 7 0) (List.replicate (8 * m) 0 ++ rest)
      0 0 s (by omega) (by simp) (by simp [SEQUENTIAL_DATA_MAX] at *; omega)
    simp only [Nat.zero_add, List.length_replicate, unmaskFrom_replicate_zero] at hufill
    norm_num at hufill
    rw [hufill, ih (s + 7) rest (by omega)]
    have hrep : List.replicate 7 (0:Nat) ++ List.replicate (7 * m) 0 =
        List.replicate (7 * (m + 1)) 0 := by
      rw [← List.replicate_add]
      congr 1
      ring
    have harith : s + 7 + 7 * m = s + 7 * (m + 1) := by ring
    rw [← List.append_assoc, hrep, harith]

/-- Once the flushed output has reached the capacity, the very next value
makes the `Seq_pack` loop break, flushing a two-value final packet. -/
theorem packGo_zero_break (t : List Nat) (s : Nat) (h : s + 8 > SEQUENTIAL_DATA_MAX) :
    packGo (0 :: t) 0 0 [] s = [0, 0] := by
  simp [packGo, h]

/-- Counterexample to claim C1 as stated: the all-zero sequence of length
112007 (a multiple of 7, below the 128000-value capacity, all values in
0..255) does not round-trip, because `Seq_pack` truncates it. -/
theorem c1_counterexample :
    Seq_unpack (Seq_pack (List.replicate 112007 0)) ≠ List.replicate 112007 0 := by
  have h7 : (0:Nat) :: List.replicate 6 0 = List.replicate 7 0 := rfl
  have hsplit : List.replicate 112007 (0:Nat) =
      List.replicate (7 * 16000) 0 ++ (0 :: List.replicate 6 0) := by
    rw [h7, ← List.replicate_add]
  have hpack : Seq_pack (List.replicate 112007 0) = List.replicate 128002 0 := by
    show packGo (List.replicate 112007 0) 0 0 [] 0 = List.replicate 128002 0
    rw [hsplit, packGo_zero_groups 16000 0 0 (List.replicate 6 0)
      (by simp [SEQUENTIAL_DATA_MAX])]
    rw [show (0:Nat) + 8 * 16000 = 128000 by norm_num]
    rw [packGo_zero_break _ _ (by simp [SEQUENTIAL_DATA_MAX])]
    rw [show ([0, 0] : List Nat) = List.replicate 2 0 from rfl, ← List.replicate_add]
  have hunpack : Seq_unpack (List.replicate 128002 0) = List.replicate 112001 0 := by
    show unpackGo (List.replicate 128002 0) 0 0 0 = List.replicate 112001 0
    have hsplit2 : List.replicate 128002 (0:Nat) =
        List.replicate (8 * 16000) 0 ++ [0, 0] := by
      rw [show ([0, 0] : List Nat) = List.replicate 2 0 from rfl, ← List.replicate_add]
    rw [hsplit2, unpackGo_zero_groups 16000 0 [0, 0] (by simp [SEQUENTIAL_DATA_MAX])]
    rw [show (0:Nat) + 7 * 16000 = 112000 by norm_num]
    have htail : unpackGo [0, 0] 0 0 112000 = [0] := by decide
    rw [htail]
    rw [show ([0] : List Nat) = List.replicate 1 0 from rfl, ← List.replicate_add]
  rw [hpack, hunpack]
  intro h
  have hlen := congrArg List.length h
  simp only [List.length_replicate] at hlen
  omega

/-- Claim C6 is violated by the code: `Seq_unpack` checks `size >
SEQUENTIAL_DATA_MAX` only after storing a value, so on a long enough
packed input the result holds 128001 values, one more than the declared
capacity (in the C code this writes past the end of the 128000-entry
array). -/
theorem c6_unpack_overflow :
    (Seq_unpack (List.replicate 146287 0)).length = SEQUENTIAL_DATA_MAX + 1 := by
  show (unpackGo (List.replicate 146287 0) 0 0 0).length = SEQUENTIAL_DATA_MAX + 1
  have hsplit : List.replicate 146287 (0:Nat) =
      List.replicate (8 * 18285) 0 ++ List.replicate 7 0 := by
    rw [← List.replicate_add]
  rw [hsplit, unpackGo_zero_groups 18285 0 (List.replicate 7 0)
    (by simp [SEQUENTIAL_DATA_MAX])]
  rw [show (0:Nat) + 7 * 18285 = 127995 by norm_num]
  have htail : unpackGo (List.replicate 7 0) 0 0 127995 = List.replicate 6 0 := by decide
  rw [htail, List.length_append, List.length_replicate, List.length_replicate]
  decide

/-! PCM buffer model (pcm_proc.h). -/

/-- PCM_PROC_MAX from pcm_proc.h. -/
def PCM_PROC_MAX : Nat := 131072

/-- PCMData from pcm_proc.h: `size` is the number of samples per channel,
`data` the channel-interleaved samples.  The fixed `data[PCM_PROC_MAX]`
array is modelled as a list of the written entries; reads of entries the C
code never wrote go through `List.getD` and return 0. -/
structure PCMData where
  size : Nat
  data : List Int
  channels : Nat
  resolution : Nat
deriving DecidableEq

/-- new_PCMData from pcm_proc.h. -/
def new_PCMData : PCMData :=
  { size := 0, data := [], channels := 1, resolution := 16 }

/-- set_pcm_data from pcm_proc.h: stores `size` values (an overall count,
not per channel) and derives the per-channel size; array entries past
`size` keep their previous contents. -/
def set_pcm_data (pcm : PCMData) (size : Nat) (data : List Int) : PCMData :=
  { pcm with size := size / pcm.channels,
             data := data.take size ++ pcm.data.drop size }

/-- One sample's conversion in the pcm_change_resolution loop
(pcm_proc.h), from `old` bits to `new` bits.  C `>>` on signed samples is
arithmetic shift, modelled by `Int.fdiv` by a power of two; `& 1` and
`& 0xff` on two's-complement values are `Int.emod` by 2 and 256. -/
def resConvert (old new : Nat) (s0 : Int) : Int :=
  let s1 := if old = 8 then s0 - 128 else s0
  let s2 :=
    if new < old then
      let mx : Int := 2 ^ new - 1
      let mn : Int := -1 - mx
      let t1 := Int.fdiv s1 (2 ^ (old - new - 1))
      let t2 := Int.fdiv t1 2
      let t3 := if t1 % 2 = 1 ∧ 0 ≤ t1 ∧ t2 < mx then t2 + 1 else t2
      let t4 := if t1 % 2 = 0 ∧ t1 < 0 ∧ t3 > mn then t3 - 1 else t3
      t4
    else s1
  let s3 := if new > old then s2 * 2 ^ (new - old) else s2
  if new = 8 then (s3 + 128) % 256 else s3

/-- pcm_change_resolution from pcm_proc.h. -/
def pcm_change_resolution (pcm : PCMData) (new_res : Nat) : PCMData :=
  let new_resolution := if new_res > 32 ∨ new_res < 8 then pcm.resolution else new_res
  if pcm.resolution = new_resolution then pcm
  else
    let n := pcm.size * pcm.channels
    set_pcm_data { pcm with resolution := new_resolution } n
      ((pcm.data.take n).map (resConvert pcm.resolution new_resolution))

/-- C cast of an `int` sample to `int16_t` (two's complement wrap). -/
def toInt16 (v : Int) : Int := (v + 32768) % 65536 - 32768

/-- Truncation of a rational toward zero, the behaviour of C's
float-to-integer conversion. -/
def truncRat (q : ℚ) : Int := if 0 ≤ q then ⌊q⌋ else -⌊-q⌋

/-- One pass of the doubling-expansion loop in pcm_change_size: between
every two adjacent same-channel samples, insert the sum of their
16-bit-truncated halves (C truncating division, `Int.tdiv`). -/
def expandStep (channels ds : Nat) (d : List Int) : List Int :=
  (List.range ds).flatMap (fun i =>
    (List.range channels).flatMap (fun ch =>
      let dx := i * channels + ch
      let nx := dx + channels
      if nx < ds * channels then
        [d.getD dx 0,
         Int.tdiv (toInt16 (d.getD dx 0)) 2 + Int.tdiv (toInt16 (d.getD nx 0)) 2]
      else [d.getD dx 0]))

/-- The `while (data_size < new_size)` expansion loop of pcm_change_size,
with explicit fuel; `new_size` steps always suffice because each pass
grows `data_size` when it is at least 2, and the claims only exercise the
non-growing direction. -/
def expandLoop (channels new_size : Nat) : Nat → Nat → List Int → Nat × List Int
  | 0, ds, d => (ds, d)
  | fuel + 1, ds, d =>
    if ds < new_size then
      let ex := expandStep channels ds d
      expandLoop channels new_size fuel (ex.length / channels) ex
    else (ds, d)

/-- pcm_change_size from pcm_proc.h.  The source computes a float
`inc = (float) data_size / new_size` and samples at the truncated float
index `(i * inc * channels) + ch`; in exact arithmetic that index equals
`i * data_size * channels / new_size + ch` with truncating division, which
is how it is modelled here (the float computation is exact for every index
the claims exercise).  Note that, as in the source, the initial copy loop
transfers only `pcm->size` entries even when there are
`pcm->size * channels` interleaved samples. -/
def pcm_change_size (pcm : PCMData) (ns : Nat) : PCMData :=
  let new_size := if ns > PCM_PROC_MAX / pcm.channels then PCM_PROC_MAX / pcm.channels else ns
  if 1 < pcm.size then
    let d0 := pcm.data.take pcm.size
    let st := expandLoop pcm.channels new_size new_size pcm.size d0
    let ds := st.1
    let d := st.2
    let resized := (List.range new_size).flatMap (fun i =>
      (List.range pcm.channels).map (fun ch =>
        let ix0 := i * ds * pcm.channels / new_size + ch
        let ix := if ix0 ≥ ds * pcm.channels then ds * pcm.channels else ix0
        d.getD ix 0))
    set_pcm_data pcm (new_size * pcm.channels) resized
  else pcm

/-- pcm_morph from pcm_proc.h: interpolates over the raw interleaved
array up to `start`'s per-channel size, building a fresh single-channel
16-bit buffer; the float interpolation is modelled over `ℚ` with C
truncation on store. -/
def pcm_morph (start finish : PCMData) (scale : ℚ) : PCMData :=
  let pcm_data := (List.range start.size).map (fun i =>
    let diff : ℚ := ((finish.data.getD i 0 : Int) : ℚ) - ((start.data.getD i 0 : Int) : ℚ)
    truncRat (((start.data.getD i 0 : Int) : ℚ) + diff * scale))
  set_pcm_data new_PCMData start.size pcm_data

example : pcm_change_resolution { size := 1, data := [300], channels := 1, resolution := 16 } 8 =
    { size := 1, data := [129], channels := 1, resolution := 8 } := by
  decide

example : pcm_change_size { size := 2, data := [3, 9], channels := 1, resolution := 16 } 2 =
    { size := 2, data := [3, 9], channels := 1, resolution := 16 } := by
  decide

/-- Claim C4 is violated by the code: narrowing the 24-bit sample 8388480
(whose discarded bits are `10000000`, value 32767 at 16 bits) to 16 bits
rounds up to 32768, because the clamp bound is `(1 << new_resolution) - 1`
= 65535 instead of the largest representable 16-bit value `2^15 - 1` =
32767; the result overflows the 16-bit range. -/
theorem c4_round_overflow :
    (pcm_change_resolution { size := 1, data := [8388480], channels := 1, resolution := 24 } 16).data
        = [32768] ∧ (2:Int) ^ (16 - 1) - 1 < 32768 := by
  constructor
  · decide
  · decide

/-- Counterexample to claim C5 as stated: the 16-bit buffer holding the
single sample -1 comes back as -2 after widening to 32 bits and narrowing
back to 16, so 16→32→16 is not lossless. -/
theorem c5_counterexample :
    pcm_change_resolution
        (pcm_change_resolution { size := 1, data := [-1], channels := 1, resolution := 16 } 32) 16
      ≠ { size := 1, data := [-1], channels := 1, resolution := 16 } := by
  decide

/-- Claim C8 is violated by the code: `pcm_change_size` copies only
`pcm->size` entries of the `pcm->size * channels` interleaved samples into
its working buffer, so for a stereo buffer the second half of the result
is read from entries the copy never wrote (the model's 0 default, stack
garbage in C), not from the original samples. -/
theorem c8_stereo_not_identity :
    pcm_change_size { size := 2, data := [1, 2, 3, 4], channels := 2, resolution := 16 } 2
      = { size := 2, data := [1, 2, 0, 0], channels := 2, resolution := 16 } := by
  decide

/-- pcm_change_resolution in map form: on a well-formed buffer with a
valid differing target resolution, it converts every sample with
`resConvert` and updates the resolution, leaving size and channels
unchanged. -/
theorem pcm_change_resolution_map (p : PCMData) (r : Nat)
    (hr1 : r ≤ 32) (hr2 : 8 ≤ r) (hne : p.resolution ≠ r)
    (hc : 0 < p.channels) (hl : p.data.length = p.size * p.channels) :
    pcm_change_resolution p r =
      { size := p.size, data := p.data.map (resConvert p.resolution r),
        channels := p.channels, resolution := r } := by
  have hguard : ¬ (r > 32 ∨ r < 8) := by omega
  unfold pcm_change_resolution
  simp only [hguard, if_false, ite_false, if_neg hne]
  unfold set_pcm_data
  have hsz : p.size * p.channels / p.channels = p.size := Nat.mul_div_cancel _ hc
  have hdata : List.take (p.size * p.channels)
      (List.take (p.size * p.channels) (List.map (resConvert p.resolution r) p.data)) ++
        List.drop (p.size * p.channels) p.data =
      List.map (resConvert p.resolution r) p.data := by
    rw [List.take_take, min_self, ← hl, List.drop_length, List.append_nil]
    rw [show p.data.length = (p.data.map (resConvert p.resolution r)).length from
      (List.length_map _ _).symm]
    exact List.take_length _
  simp [hsz, hdata]

/-- Round trip of one byte sample through 8→16→8 bit conversion: identity
on 128..255 (non-negative after bias removal), one less (mod 256) below
128. -/
theorem resConvert_8_16_8 (x : Int) (h0 : 0 ≤ x) (h1 : x < 256) :
    resConvert 16 8 (resConvert 8 16 x) = if x < 128 then (x + 255) % 256 else x := by
  have hA : resConvert 8 16 x = (x - 128) * 256 := by
    unfold resConvert
    norm_num
  have ht1 : Int.fdiv ((x - 128) * 256) 128 = (x - 128) * 2 := by
    rw [show (x - 128) * 256 = ((x - 128) * 2) * 128 by ring]
    exact Int.mul_fdiv_cancel _ (by norm_num)
  have ht2 : Int.fdiv ((x - 128) * 2) 2 = x - 128 :=
    Int.mul_fdiv_cancel _ (by norm_num)
  rw [hA]
  unfold resConvert
  norm_num
  rw [ht1, ht2]
  have hm : ((x - 128) * 2) % 2 = 0 := by omega
  split_ifs <;> omega

/-- Round trip of one 16-bit sample through 16→32→16 bit conversion:
identity on non-negative samples, one less on negative samples. -/
theorem resConvert_16_32_16 (x : Int) (h0 : -32768 ≤ x) (h1 : x < 32768) :
    resConvert 32 16 (resConvert 16 32 x) = if x < 0 then x - 1 else x := by
  have hA : resConvert 16 32 x = x * 65536 := by
    unfold resConvert
    norm_num
  have ht1 : Int.fdiv (x * 65536) 32768 = x * 2 := by
    rw [show x * 65536 = (x * 2) * 32768 by ring]
    exact Int.mul_fdiv_cancel _ (by norm_num)
  have ht2 : Int.fdiv (x * 2) 2 = x := Int.mul_fdiv_cancel _ (by norm_num)
  rw [hA]
  unfold resConvert
  norm_num
  rw [ht1, ht2]
  split_ifs <;> omega

/-- Claim C5 (amended): the resolution round trips preserve size, channels
and resolution, but are lossless only on samples that are non-negative
after sign interpretation.  8→16→8 fixes every stored byte ≥ 128 and maps
a byte x < 128 (a negative sample) to (x + 255) % 256; 16→32→16 fixes
non-negative samples and maps a negative sample x to x - 1.  The rounding
rule of pcm_change_resolution decrements exactly-representable negative
values, so neither round trip is lossless. -/
theorem c5_roundtrips (p8 p16 : PCMData)
    (h8r : p8.resolution = 8) (h8c : 0 < p8.channels)
    (h8l : p8.data.length = p8.size * p8.channels)
    (h8v : ∀ v ∈ p8.data, 0 ≤ v ∧ v < 256)
    (h16r : p16.resolution = 16) (h16c : 0 < p16.channels)
    (h16l : p16.data.length = p16.size * p16.channels)
    (h16v : ∀ v ∈ p16.data, -32768 ≤ v ∧ v < 32768) :
    pcm_change_resolution (pcm_change_resolution p8 16) 8 =
      { p8 with data := p8.data.map (fun x => if x < 128 then (x + 255) % 256 else x) } ∧
    pcm_change_resolution (pcm_change_resolution p16 32) 16 =
      { p16 with data := p16.data.map (fun x => if x < 0 then x - 1 else x) } := by
  constructor
  · have hs1 := pcm_change_resolution_map p8 16 (by norm_num) (by norm_num)
      (by rw [h8r]; norm_num) h8c h8l
    rw [hs1]
    have hs2 := pcm_change_resolution_map
      { size := p8.size, data := p8.data.map (resConvert p8.resolution 16),
        channels := p8.channels, resolution := 16 } 8 (by norm_num) (by norm_num)
      (by norm_num) h8c (by simp [h8l])
    rw [hs2]
    rw [h8r, List.map_map]
    have hmap : p8.data.map (resConvert 16 8 ∘ resConvert 8 16) =
        p8.data.map (fun x => if x < 128 then (x + 255) % 256 else x) := by
      refine List.map_congr_left (fun x hx => ?_)
      obtain ⟨hx0, hx1⟩ := h8v x hx
      simpa [Function.comp] using resConvert_8_16_8 x hx0 hx1
    rw [hmap]
  · have hs1 := pcm_change_resolution_map p16 32 (by norm_num) (by norm_num)
      (by rw [h16r]; norm_num) h16c h16l
    rw [hs1]
    have hs2 := pcm_change_resolution_map
      { size := p16.size, data := p16.data.map (resConvert p16.resolution 32),
        channels := p16.channels, resolution := 32 } 16 (by norm_num) (by norm_num)
      (by norm_num) h16c (by simp [h16l])
    rw [hs2]
    rw [h16r, List.map_map]
    have hmap : p16.data.map (resConvert 32 16 ∘ resConvert 16 32) =
        p16.data.map (fun x => if x < 0 then x - 1 else x) := by
      refine List.map_congr_left (fun x hx => ?_)
      obtain ⟨hx0, hx1⟩ := h16v x hx
      simpa [Function.comp] using resConvert_16_32_16 x hx0 hx1
    rw [hmap]

/-- Witness for `c5_roundtrips` at concrete one-sample buffers. -/
theorem c5_roundtrips_witness :
    pcm_change_resolution
        (pcm_change_resolution { size := 1, data := [5], channels := 1, resolution := 8 } 16) 8 =
      { ({ size := 1, data := [5], channels := 1, resolution := 8 } : PCMData) with
          data := ([5] : List Int).map (fun x => if x < 128 then (x + 255) % 256 else x) } ∧
    pcm_change_resolution
        (pcm_change_resolution { size := 1, data := [7], channels := 1, resolution := 16 } 32) 16 =
      { ({ size := 1, data := [7], channels := 1, resolution := 16 } : PCMData) with
          data := ([7] : List Int).map (fun x => if x < 0 then x - 1 else x) } :=
  c5_roundtrips { size := 1, data := [5], channels := 1, resolution := 8 }
    { size := 1, data := [7], channels := 1, resolution := 16 }
    rfl (by norm_num) (by decide) (by decide) rfl (by norm_num) (by decide) (by decide)

/-! WAV metadata scan (get_wav_meta in pcm_proc.h). -/

/-- WAVMeta from pcm_proc.h. -/
structure WAVMeta where
  data_start : Nat
  data_end : Nat
  samples : Nat
  channels : Nat
  resolution : Nat
deriving DecidableEq

/-- State of the scanning loop in get_wav_meta. -/
structure WavScanSt where
  channels : Nat
  resolution : Nat
  fcx : Nat
  dcx : Nat
  d_st : Nat
  d_end : Nat
deriving DecidableEq

/-- The chunk id "fmt " as byte values. -/
def fcid : List Nat := [102, 109, 116, 32]

/-- The chunk id "data" as byte values. -/
def dcid : List Nat := [100, 97, 116, 97]

/-- One iteration of get_wav_meta's scanning loop: try to advance the
"fmt " match (reading channels and resolution at fixed offsets when its
last character matches), then the "data" match (reading the 4-byte
little-endian chunk length).  The C string index `fcid[fcx]` one past the
id reads the terminating NUL, modelled by `getD`'s 0 default. -/
def wavScanStep (data : List Nat) (size i : Nat) (st : WavScanSt) : WavScanSt :=
  let b := data.getD i 0
  let st1 : WavScanSt :=
    if b = fcid.getD st.fcx 0 ∧ st.channels = 0 then
      if st.fcx = 3 then
        WavScanSt.mk
          (if i + 7 < size then data.getD (i + 7) 0 else st.channels)
          (if i + 19 < size then data.getD (i + 19) 0 else st.resolution)
          (st.fcx + 1) st.dcx st.d_st st.d_end
      else WavScanSt.mk st.channels st.resolution (st.fcx + 1) st.dcx st.d_st st.d_end
    else WavScanSt.mk st.channels st.resolution 0 st.dcx st.d_st st.d_end
  if b = dcid.getD st1.dcx 0 ∧ st1.d_end = 0 then
    if st1.dcx = 3 then
      WavScanSt.mk st1.channels st1.resolution st1.fcx (st1.dcx + 1) (i + 5)
        (i + 5 + data.getD (i + 1) 0 + data.getD (i + 2) 0 * 256 +
          data.getD (i + 3) 0 * 65536 + data.getD (i + 4) 0 * 16777216)
    else WavScanSt.mk st1.channels st1.resolution st1.fcx (st1.dcx + 1) st1.d_st st1.d_end
  else WavScanSt.mk st1.channels st1.resolution st1.fcx 0 st1.d_st st1.d_end

/-- The scanning loop of get_wav_meta, with fuel equal to the remaining
iteration count; the loop breaks early once all four fields are
non-zero. -/
def wavScan (data : List Nat) (size : Nat) : Nat → Nat → WavScanSt → WavScanSt
  | 0, _, st => st
  | fuel + 1, i, st =>
    if i < size then
      let st' := wavScanStep data size i st
      if st'.d_st ≠ 0 ∧ st'.d_end ≠ 0 ∧ st'.channels ≠ 0 ∧ st'.resolution ≠ 0 then st'
      else wavScan data size fuel (i + 1) st'
    else st

/-- get_wav_meta from pcm_proc.h.  For `size ≤ 44` the C function returns
its stack-allocated struct uninitialized; that case is modelled as
`none`.  The samples division `(d_end - d_st) / (resolution / 8)` uses
truncated arithmetic; when `resolution < 8` the C code divides by zero
(Lean's convention returns 0 here). -/
def get_wav_meta (size : Nat) (data : List Nat) : Option WAVMeta :=
  if size > 44 then
    let st := wavScan data size size 0 ⟨0, 0, 0, 0, 0, 0⟩
    some { data_start := st.d_st, data_end := st.d_end,
           samples := (st.d_end - st.d_st) / (st.resolution / 8),
           channels := st.channels, resolution := st.resolution }
  else none

/-- A 52-byte synthetic WAV stream: a canonical 44-byte header for 16-bit
mono PCM (data chunk length 8) followed by 8 zero data bytes. -/
def wavC9 : List Nat :=
  [82, 73, 70, 70, 44, 0, 0, 0, 87, 65, 86, 69,
   102, 109, 116, 32, 16, 0, 0, 0, 1, 0, 1, 0,
   68, 172, 0, 0, 136, 88, 1, 0, 2, 0, 16, 0,
   100, 97, 116, 97, 8, 0, 0, 0] ++ List.replicate 8 0

/-- Counterexample to claim C9 as stated: on the 44-byte-header + 8-byte
synthetic mono 16-bit WAV, get_wav_meta does not report samples = 2. -/
theorem c9_counterexample :
    (get_wav_meta 52 wavC9).map WAVMeta.samples ≠ some 2 := by
  decide

/-- Claim C9 (amended): on that stream get_wav_meta reports channels = 1,
resolution = 16 and samples = 4 — the data chunk holds 8 bytes, i.e. four
16-bit units, and the samples field divides only by the bytes per sample,
not by the channel count. -/
theorem c9_wav_meta :
    get_wav_meta 52 wavC9 =
      some { data_start := 44, data_end := 52, samples := 4,
             channels := 1, resolution := 16 } := by
  decide

theorem getD_take_eq {α : Type} (l l' : List α) (n i : Nat) (d : α)
    (h : l.take n = l'.take n) (hi : i < n) : l.getD i d = l'.getD i d := by
  rw [List.getD_eq_getElem?_getD, List.getD_eq_getElem?_getD,
    ← @List.getElem?_take_of_lt _ l n i hi, ← @List.getElem?_take_of_lt _ l' n i hi, h]

/-- Claim C10: pcm_morph always returns a single-channel 16-bit buffer
whose per-channel size is `start`'s per-channel size and whose data list
has exactly that many entries, and the result depends only on the first
`start.size` entries of the two interleaved sample arrays (and on
`start.size` itself) — entries beyond that are never read and never appear
in the result, regardless of either buffer's channels or resolution. -/
theorem c10_morph (s e : PCMData) (q : ℚ) :
    (pcm_morph s e q).channels = 1 ∧
    (pcm_morph s e q).resolution = 16 ∧
    (pcm_morph s e q).size = s.size ∧
    (pcm_morph s e q).data.length = s.size ∧
    (∀ s' e' : PCMData, s'.size = s.size →
      s'.data.take s.size = s.data.take s.size →
      e'.data.take s.size = e.data.take s.size →
      pcm_morph s' e' q = pcm_morph s e q) := by
  refine ⟨rfl, rfl, ?_, ?_, ?_⟩
  · simp [pcm_morph, set_pcm_data, new_PCMData]
  · simp [pcm_morph, set_pcm_data, new_PCMData]
  · intro s' e' hsz hstake hetake
    simp only [pcm_morph]
    rw [hsz]
    refine congrArg (set_pcm_data new_PCMData s.size) ?_
    refine List.map_congr_left (fun i hi => ?_)
    have hilt : i < s.size := List.mem_range.mp hi
    rw [getD_take_eq s'.data s.data s.size i 0 hstake hilt,
      getD_take_eq e'.data e.data s.size i 0 hetake hilt]

/-- Witness for `c10_morph`: concrete buffers differing in channels,
resolution, and in every array entry past `start.size` produce identical
morph results. -/
theorem c10_morph_witness :
    (pcm_morph { size := 2, data := [1, 2, 9], channels := 1, resolution := 16 }
        { size := 5, data := [3, 4], channels := 2, resolution := 32 } (1/2 : ℚ)).size = 2 ∧
    pcm_morph { size := 2, data := [1, 2, 7, 8], channels := 2, resolution := 8 }
        { size := 0, data := [3, 4, 99], channels := 1, resolution := 8 } (1/2 : ℚ) =
      pcm_morph { size := 2, data := [1, 2, 9], channels := 1, resolution := 16 }
        { size := 5, data := [3, 4], channels := 2, resolution := 32 } (1/2 : ℚ) := by
  refine ⟨(c10_morph _ _ _).2.2.1, ?_⟩
  exact (c10_morph { size := 2, data := [1, 2, 9], channels := 1, resolution := 16 }
    { size := 5, data := [3, 4], channels := 2, resolution := 32 } (1/2 : ℚ)).2.2.2.2
    _ _ rfl (by decide) (by decide)

/-! Pro 3 wavetable (pro_wavetable.h). -/

/-- Wavetable from pro_wavetable.h: 16 reference waveforms of 1024
samples (`ref slot index`) with a parallel set-flag array.  The fixed 2-D
array is modelled as a total function. -/
structure Wavetable where
  ref : Nat → Nat → Int
  isset : Nat → Bool

/-- new_Wavetable from pro_wavetable.h. -/
def new_Wavetable : Wavetable :=
  { ref := fun _ _ => 0, isset := fun _ => false }

/-- wavetable_fill from pro_wavetable.h: no-op when slot 0 is unset;
otherwise copy slot 0 to slot 15 if the latter is unset, then for every
slot index c in 1..15 whose flag is unset, find the next set slot n and
fill slots c..n-1 by linear interpolation between slots c-1 and n (the
float scale is modelled over `ℚ` with C truncation on store).  As in the
source, the interpolated slots' `isset` flags are never updated. -/
def wavetable_fill (t : Wavetable) : Wavetable :=
  if t.isset 0 = false then t
  else
    let t1 : Wavetable :=
      if t.isset 15 = false then
        Wavetable.mk
          (fun r i => if r = 15 ∧ i < 1024 then t.ref 0 i else t.ref r i)
          (fun r => if r = 15 then true else t.isset r)
      else t
    (List.range' 1 15).foldl (fun acc c =>
      if acc.isset c = false then
        match (List.range' c (16 - c)).find? (fun n => acc.isset n) with
        | none => acc
        | some n =>
          (List.range' c (n - c)).foldl (fun acc2 tt =>
            Wavetable.mk
              (fun r i =>
                if r = tt ∧ i < 1024 then
                  truncRat (((acc2.ref (c - 1) i : Int) : ℚ) +
                    (((acc2.ref n i : Int) : ℚ) - ((acc2.ref (c - 1) i : Int) : ℚ)) *
                      (((tt - c + 1 : Nat) : ℚ) / ((n - c : Nat) : ℚ)))
                else acc2.ref r i)
              acc2.isset) acc
      else acc) t1

/-- Claim C7 is violated by the code: starting from a table with only
slot 0 set, wavetable_fill writes interpolated waveforms into slots 1-14
and marks slot 15 set, but never sets the `isset` flags of the
interpolated slots, so afterwards neither are all 16 flags set nor is the
table unmodified. -/
theorem c7_fill_flags :
    (Wavetable.mk (fun _ _ => 0) (fun r => r == 0)).isset 0 = true ∧
    (wavetable_fill (Wavetable.mk (fun _ _ => 0) (fun r => r == 0))).isset 1 = false ∧
    (wavetable_fill (Wavetable.mk (fun _ _ => 0) (fun r => r == 0))).isset 15 = true := by
  refine ⟨rfl, ?_, ?_⟩
  · decide
  · decide

/-- The 1024 samples of wavetable slot `k` as a list (what set_pcm_data
copies out of `table->ref[k]` in wavetable_sysex_dump). -/
def refList (t : Wavetable) (k : Nat) : List Int :=
  (List.range 1024).map (t.ref k)

/-- High output byte of one serialized sample in wavetable_sysex_dump:
`(int16_t) sample >> 8` stored into an `unsigned int` slot (mod 2^32). -/
def sampleHi (v : Int) : Nat :=
  (((toInt16 v).fdiv 256) % 4294967296).toNat

/-- Low output byte of one serialized sample: `(int16_t) sample & 0xff`. -/
def sampleLo (v : Int) : Nat :=
  ((toInt16 v) % 256).toNat

/-- Checksum contribution of one sample: the byte-swapped `uint16_t`
value `((uint16_t) sample >> 8) | ((uint16_t) sample << 8)`. -/
def sampleCheck (v : Int) : Nat :=
  let u := ((toInt16 v) % 65536).toNat
  ((u / 256) ||| (u * 256)) % 65536

/-- The (data, size) pairs serialized for one slot, in stream order: the
full 1024-sample waveform, the 512-sample downsample, the 256-sample
downsample twice and the 128-sample downsample eight times, produced by
successive pcm_change_size calls as in wavetable_sysex_dump. -/
def slotStream (refk : List Int) : List (List Int × Nat) :=
  let p0 := set_pcm_data new_PCMData 1024 refk
  let p1 := pcm_change_size p0 512
  let p2 := pcm_change_size p1 256
  let p3 := pcm_change_size p2 128
  [(p0.data, p0.size), (p1.data, p1.size), (p2.data, p2.size), (p2.data, p2.size)] ++
    List.replicate 8 (p3.data, p3.size)

/-- Output bytes of serializing `n` samples of `d`: high byte then low
byte for each. -/
def serSamples (d : List Int) (n : Nat) : List Nat :=
  (List.range n).flatMap (fun i => [sampleHi (d.getD i 0), sampleLo (d.getD i 0)])

/-- The running 16-bit checksum after adding `n` samples of `d` to `a`. -/
def checkAccum (a : Nat) (d : List Int) (n : Nat) : Nat :=
  (List.range n).foldl (fun a2 i => (a2 + sampleCheck (d.getD i 0)) % 65536) a

/-- One serialization pass of wavetable_sysex_dump's inner loop: append
the bytes of `n` samples to the output and fold their byte-swapped values
into the checksum, exactly as the single C loop does both at once. -/
def serStep (st : List Nat × Nat) (dn : List Int × Nat) : List Nat × Nat :=
  (List.range dn.2).foldl (fun st2 i =>
    (st2.1 ++ [sampleHi (dn.1.getD i 0), sampleLo (dn.1.getD i 0)],
     (st2.2 + sampleCheck (dn.1.getD i 0)) % 65536)) st

/-- The (pro3_data, checksum) state after wavetable_sysex_dump's 16-slot
serialization loop. -/
def dumpState (t : Wavetable) : List Nat × Nat :=
  (List.range 16).foldl (fun st k => (slotStream (refList t k)).foldl serStep st) ([], 0)

/-- The serialized waveform payload, described directly (all slots'
streams concatenated). -/
def wavetablePayload (t : Wavetable) : List Nat :=
  (List.range 16).flatMap (fun k =>
    (slotStream (refList t k)).flatMap (fun dn => serSamples dn.1 dn.2))

/-- The accumulated 16-bit checksum, described directly. -/
def wavetableChecksum (t : Wavetable) : Nat :=
  (List.range 16).foldl (fun a k =>
    (slotStream (refList t k)).foldl (fun a2 dn => checkAccum a2 dn.1 dn.2) a) 0

/-- The `while (strlen(name) < 8) strcat(name, " ")` padding loop of
wavetable_sysex_dump. -/
def padTo8 (name : List Nat) : List Nat :=
  if name.length < 8 then padTo8 (name ++ [32]) else name
termination_by 8 - name.length
decreasing_by simp; omega

/-- wavetable_sysex_dump from pro_wavetable.h, as the byte stream written
to the output: the fixed SysEx header, the slot number, the name padded
with spaces and printed with `%.8s`, a zero byte, the `Seq_pack`ed
payload written by Seq_dump (`putchar` emits each value mod 256), the two
masked checksum bytes, and the SysEx terminator. -/
def wavetable_sysex_dump (t : Wavetable) (num : Nat) (name : List Nat) : List Nat :=
  let st := dumpState t
  let packed := Seq_pack st.1
  [0xf0, 0x01, 0x31, 0x6a, 0x6c, 0x01, 0x6b] ++ [num % 256] ++ (padTo8 name).take 8 ++
    [0x00] ++ packed.map (fun v => v % 256) ++
    [st.2 &&& 0x7f, (st.2 >>> 8) &&& 0x7f] ++ [0xf7]

theorem padTo8_eq_aux :
    ∀ (k : Nat) (name : List Nat), 8 - name.length ≤ k →
      padTo8 name = name ++ List.replicate (8 - name.length) 32 := by
  intro k
  induction k with
  | zero =>
    intro name h
    have h8 : ¬ (name.length < 8) := by omega
    rw [padTo8, if_neg h8]
    simp [Nat.sub_eq_zero_of_le (by omega : (8:Nat) ≤ name.length)]
  | succ m ih =>
    intro name h
    by_cases hlt : name.length < 8
    · rw [padTo8, if_pos hlt, ih (name ++ [32]) (by simp; omega)]
      simp only [List.length_append, List.length_singleton, List.append_assoc,
        List.singleton_append]
      have hrep : (32:Nat) :: List.replicate (8 - (name.length + 1)) 32 =
          List.replicate (8 - name.length) 32 := by
        rw [← List.replicate_succ]
        congr 1
        omega
      rw [hrep]
    · rw [padTo8, if_neg hlt]
      simp [Nat.sub_eq_zero_of_le (by omega : (8:Nat) ≤ name.length)]

/-- The space-padding while loop pads the name to at least 8 characters. -/
theorem padTo8_eq (name : List Nat) :
    padTo8 name = name ++ List.replicate (8 - name.length) 32 :=
  padTo8_eq_aux 8 name (by omega)

theorem serStep_eq (dn : List Int × Nat) :
    ∀ st : List Nat × Nat,
      serStep st dn = (st.1 ++ serSamples dn.1 dn.2, checkAccum st.2 dn.1 dn.2) := by
  obtain ⟨d, n⟩ := dn
  induction n with
  | zero => intro st; simp [serStep, serSamples, checkAccum]
  | succ m ih =>
    intro st
    simp only [serStep] at ih ⊢
    simp only [List.range_succ, List.foldl_append, List.foldl_cons, List.foldl_nil, ih]
    simp only [serSamples, checkAccum, List.range_succ, List.flatMap_append,
      List.foldl_append, List.foldl_cons, List.foldl_nil, List.flatMap_cons,
      List.flatMap_nil, List.append_nil, List.append_assoc]

theorem foldl_serStep_eq (L : List (List Int × Nat)) :
    ∀ st : List Nat × Nat,
      L.foldl serStep st =
        (st.1 ++ L.flatMap (fun dn => serSamples dn.1 dn.2),
         L.foldl (fun a dn => checkAccum a dn.1 dn.2) st.2) := by
  induction L with
  | nil => intro st; simp
  | cons dn L ih =>
    intro st
    simp only [List.foldl_cons, List.flatMap_cons, serStep_eq dn st, ih, List.append_assoc]

theorem foldl_slots_eq (t : Wavetable) (ks : List Nat) :
    ∀ st : List Nat × Nat,
      ks.foldl (fun st2 k => (slotStream (refList t k)).foldl serStep st2) st =
        (st.1 ++ ks.flatMap (fun k =>
            (slotStream (refList t k)).flatMap (fun dn => serSamples dn.1 dn.2)),
         ks.foldl (fun a k =>
            (slotStream (refList t k)).foldl (fun a2 dn => checkAccum a2 dn.1 dn.2) a) st.2) := by
  induction ks with
  | nil => intro st; simp
  | cons k ks ih =>
    intro st
    rw [List.foldl_cons, List.foldl_cons, List.flatMap_cons]
    rw [ih (List.foldl serStep st (slotStream (refList t k)))]
    rw [foldl_serStep_eq]
    simp [List.append_assoc]

/-- The one-pass serialization state equals the directly-described payload
and checksum. -/
theorem dumpState_eq (t : Wavetable) :
    dumpState t = (wavetablePayload t, wavetableChecksum t) := by
  unfold dumpState wavetablePayload wavetableChecksum
  rw [foldl_slots_eq]
  simp

theorem packGo_cons_break (c : Nat) (rest : List Nat) (pb pos : Nat) (packet : List Nat)
    (size : Nat) (hfl : pos ≠ 7) (hbr : size + 8 > SEQUENTIAL_DATA_MAX) :
    packGo (c :: rest) pb pos packet size =
      (if Nat.testBit c 7 then pb + 2 ^ pos else pb) ::
        (packet ++ [if Nat.testBit c 7 then c % 0x80 else c]) := by
  simp [packGo, hfl, hbr]

theorem packGo_cons_go (c : Nat) (rest : List Nat) (pb pos : Nat) (packet : List Nat)
    (size : Nat) (hfl : pos ≠ 7) (hbr : ¬ (size + 8 > SEQUENTIAL_DATA_MAX)) :
    packGo (c :: rest) pb pos packet size =
      packGo rest (if Nat.testBit c 7 then pb + 2 ^ pos else pb) (pos + 1)
        (packet ++ [if Nat.testBit c 7 then c % 0x80 else c]) size := by
  simp [packGo, hfl, hbr]

/-- Every value the `Seq_pack` loop emits is below 128, as long as every
pending and incoming value is either already below 128 or has bit 7 set
(so that the masking branch fires). -/
theorem packGo_lt_128 (l : List Nat) :
    ∀ (pb pos : Nat) (packet : List Nat) (size : Nat),
      pos ≤ 7 → pb < 2 ^ pos → (∀ v ∈ packet, v < 128) →
      (∀ v ∈ l, v < 128 ∨ Nat.testBit v 7) →
      ∀ v ∈ packGo l pb pos packet size, v < 128 := by
  have hpow : ∀ pos : Nat, pos ≤ 7 → (2:Nat) ^ pos ≤ 128 := by
    intro pos h
    calc (2:Nat) ^ pos ≤ 2 ^ 7 := Nat.pow_le_pow_right (by norm_num) h
    _ = 128 := by norm_num
  induction l with
  | nil =>
    intro pb pos packet size hpos hpb hpk _ v hv
    simp only [packGo, List.mem_cons] at hv
    rcases hv with rfl | hv
    · exact lt_of_lt_of_le hpb (hpow pos hpos)
    · exact hpk v hv
  | cons c rest ih =>
    intro pb pos packet size hpos hpb hpk hl v hv
    have hc := hl c (List.mem_cons_self c rest)
    have hrest : ∀ w ∈ rest, w < 128 ∨ Nat.testBit w 7 :=
      fun w hw => hl w (List.mem_cons_of_mem c hw)
    have hc1 : (if Nat.testBit c 7 then c % 0x80 else c) < 128 := by
      by_cases hhi : Nat.testBit c 7
      · simp only [hhi, if_true, ite_true]
        exact Nat.mod_lt _ (by norm_num)
      · simp only [hhi, if_false, ite_false]
        rcases hc with h | h
        · exact h
        · exact absurd h hhi
    have main : ∀ (pb' pos' : Nat) (packet' : List Nat) (size' : Nat),
        pos' ≤ 6 → pb' < 2 ^ pos' → (∀ w ∈ packet', w < 128) →
        ∀ w ∈ packGo (c :: rest) pb' pos' packet' size', w < 128 := by
      intro pb' pos' packet' size' hpos' hpb' hpk' w hw
      have hfl : pos' ≠ 7 := by omega
      have hpb1 : (if Nat.testBit c 7 then pb' + 2 ^ pos' else pb') < 2 ^ (pos' + 1) := by
        have := pow_succ 2 pos'
        split <;> omega
      have hpk1 : ∀ u ∈ packet' ++ [if Nat.testBit c 7 then c % 0x80 else c], u < 128 := by
        intro u hu
        simp only [List.mem_append, List.mem_singleton] at hu
        rcases hu with hu | rfl
        · exact hpk' u hu
        · exact hc1
      by_cases hbr : size' + 8 > SEQUENTIAL_DATA_MAX
      · rw [packGo_cons_break c rest pb' pos' packet' size' hfl hbr] at hw
        simp only [List.mem_cons, List.mem_append, List.mem_singleton,
          List.not_mem_nil, or_false] at hw
        rcases hw with rfl | hw | rfl
        · exact lt_of_lt_of_le hpb1 (hpow (pos' + 1) (by omega))
        · exact hpk' w hw
        · exact hc1
      · rw [packGo_cons_go c rest pb' pos' packet' size' hfl hbr] at hw
        exact ih _ (pos' + 1) _ size' (by omega) hpb1 hpk1 hrest w hw
    by_cases hfl : pos = 7
    · subst hfl
      rw [packGo_flush (c :: rest) (List.cons_ne_nil c rest) pb packet size] at hv
      simp only [List.mem_append, List.mem_cons] at hv
      rcases hv with (rfl | hv) | hv
      · exact lt_of_lt_of_le hpb (hpow 7 (le_refl 7))
      · exact hpk v hv
      · exact main 0 0 [] (size + 8) (by norm_num) (by norm_num) (by simp) v hv
    · exact main pb pos packet size (by omega) hpb hpk v hv

theorem toInt16_bounds (v : Int) : -32768 ≤ toInt16 v ∧ toInt16 v < 32768 := by
  unfold toInt16
  have h1 := Int.emod_nonneg (v + 32768) (by norm_num : (65536:Int) ≠ 0)
  have h2 := Int.emod_lt_of_pos (v + 32768) (by norm_num : (0:Int) < 65536)
  omega

/-- Every high output byte is below 128 (non-negative shifted sample) or
has bit 7 set (sign bits of a negative sample survive the 32-bit wrap). -/
theorem sampleHi_prop (v : Int) : sampleHi v < 128 ∨ Nat.testBit (sampleHi v) 7 := by
  obtain ⟨hl, hr⟩ := toInt16_bounds v
  unfold sampleHi
  rw [Int.fdiv_eq_ediv _ (by norm_num : (0:Int) ≤ 256)]
  by_cases h0 : 0 ≤ toInt16 v / 256
  · left
    have hlt : toInt16 v / 256 < 4294967296 := by omega
    rw [Int.emod_eq_of_lt h0 hlt]
    omega
  · right
    have hm1 : toInt16 v / 256 % 4294967296 = toInt16 v / 256 + 4294967296 := by
      omega
    rw [hm1, Nat.testBit_to_div_mod]
    have hdiv : (toInt16 v / 256 + 4294967296).toNat / 128 = 33554431 := by omega
    rw [hdiv]
    decide

/-- Every low output byte is below 128 or has bit 7 set. -/
theorem sampleLo_prop (v : Int) : sampleLo v < 128 ∨ Nat.testBit (sampleLo v) 7 := by
  unfold sampleLo
  have h1 := Int.emod_nonneg (toInt16 v) (by norm_num : (256:Int) ≠ 0)
  have h2 := Int.emod_lt_of_pos (toInt16 v) (by norm_num : (0:Int) < 256)
  by_cases h : (toInt16 v % 256).toNat < 128
  · left; exact h
  · right
    rw [Nat.testBit_to_div_mod]
    have hdiv : (toInt16 v % 256).toNat / 128 = 1 := by omega
    rw [hdiv]
    decide

theorem wavetablePayload_prop (t : Wavetable) :
    ∀ v ∈ wavetablePayload t, v < 128 ∨ Nat.testBit v 7 := by
  intro v hv
  unfold wavetablePayload at hv
  simp only [List.mem_flatMap] at hv
  obtain ⟨k, _, dn, _, hv⟩ := hv
  unfold serSamples at hv
  simp only [List.mem_flatMap, List.mem_cons, List.mem_singleton, List.not_mem_nil,
    or_false] at hv
  obtain ⟨i, _, hv⟩ := hv
  rcases hv with rfl | rfl
  · exact sampleHi_prop _
  · exact sampleLo_prop _

theorem pack_payload_map_mod (t : Wavetable) :
    (Seq_pack (wavetablePayload t)).map (fun v => v % 256) =
      Seq_pack (wavetablePayload t) := by
  have hlt : ∀ v ∈ Seq_pack (wavetablePayload t), v < 128 := by
    intro v hv
    exact packGo_lt_128 (wavetablePayload t) 0 0 [] 0 (by norm_num) (by norm_num)
      (by simp) (wavetablePayload_prop t) v hv
  conv_rhs => rw [← List.map_id (Seq_pack (wavetablePayload t))]
  exact List.map_congr_left
    (fun v hv => Nat.mod_eq_of_lt (lt_trans (hlt v hv) (by norm_num)))

/-- Claim C2: wavetable_sysex_dump writes exactly the header
F0 01 31 6A 6C 01 6B, the slot number, the name space-padded or truncated
to exactly 8 characters, a zero byte, the Seq_pack-packed serialized
waveform payload, the low 7 bits of the accumulated 16-bit checksum, the
high checksum byte masked to 7 bits, and F7 — in that order and nothing
else. -/
theorem c2_sysex_format (t : Wavetable) (num : Nat) (name : List Nat) (hnum : num < 256) :
    wavetable_sysex_dump t num name =
      [0xf0, 0x01, 0x31, 0x6a, 0x6c, 0x01, 0x6b] ++ [num] ++
        (name ++ List.replicate (8 - name.length) 32).take 8 ++ [0x00] ++
        Seq_pack (wavetablePayload t) ++
        [wavetableChecksum t % 128, wavetableChecksum t / 256 % 128] ++ [0xf7] := by
  have hand1 : wavetableChecksum t &&& 0x7f = wavetableChecksum t % 128 := by
    have h := Nat.and_pow_two_sub_one_eq_mod (wavetableChecksum t) 7
    norm_num at h
    exact h
  have hand2 : (wavetableChecksum t >>> 8) &&& 0x7f = wavetableChecksum t / 256 % 128 := by
    have h := Nat.and_pow_two_sub_one_eq_mod (wavetableChecksum t >>> 8) 7
    norm_num at h
    rw [h, Nat.shiftRight_eq_div_pow]
  simp only [wavetable_sysex_dump, dumpState_eq, padTo8_eq, Nat.mod_eq_of_lt hnum,
    pack_payload_map_mod, hand1, hand2, List.append_assoc, List.cons_append,
    List.nil_append]

/-- Witness for `c2_sysex_format` at the empty wavetable, slot 3, and a
two-character name. -/
theorem c2_sysex_format_witness :
    wavetable_sysex_dump new_Wavetable 3 [65, 66] =
      [0xf0, 0x01, 0x31, 0x6a, 0x6c, 0x01, 0x6b] ++ [3] ++
        ([65, 66] ++ List.replicate (8 - ([65, 66] : List Nat).length) 32).take 8 ++ [0x00] ++
        Seq_pack (wavetablePayload new_Wavetable) ++
        [wavetableChecksum new_Wavetable % 128,
         wavetableChecksum new_Wavetable / 256 % 128] ++ [0xf7] :=
  c2_sysex_format new_Wavetable 3 [65, 66] (by norm_num)
